import Mathlib

/-!
Verification of `src/distance/path_constrain.py`: the instrumentation-set
computation for directed fuzzing.  The Python functions are embedded as
executable Lean definitions; dictionaries become association lists, Python
sets become lists used up to membership, and the unbounded loops/recursions
of the source are given an explicit fuel argument together with theorems
showing the chosen fuel always suffices.
-/

/-- A call graph: mapping from caller to its ordered list of callees
(Python `dict` built by `parse_call_graph_file`). -/
abbrev CallGraph := List (String × List String)

/-- Call-site records: caller to ordered list of (callee, line) pairs. -/
abbrev CallSites := List (String × List (String × Int))

/-- Basic-block call info: function to ordered list of blocks, each an
ordered list of callees (`bb_calls`). -/
abbrev BBCalls := List (String × List (List String))

/-- Association-list lookup with a default, modelling Python `dict.get(k, d)`. -/
def lookupD {α : Type} (m : List (String × α)) (k : String) (d : α) : α :=
  match m with
  | [] => d
  | (k', v) :: rest => if k' = k then v else lookupD rest k d

/-- `call_graph.get(node, [])`: the recorded callees of a function. -/
def callees (g : CallGraph) (f : String) : List String :=
  lookupD g f []

/-- Models Python `int(s)` restricted to ASCII decimal literals with an
optional sign and surrounding whitespace (the forms produced by the
call-graph generator); other syntax is treated as a parse failure. -/
def pyInt (s : String) : Option Int :=
  let t := s.trim
  if t.startsWith "-" then ((t.drop 1).toNat?).map (fun n => -(n : Int))
  else if t.startsWith "+" then ((t.drop 1).toNat?).map (fun n => (n : Int))
  else (t.toNat?).map (fun n => (n : Int))

/-- One line of `call_graph.txt`: `caller,callee:line` after stripping.
Returns `none` exactly when the source skips the line (missing `,` or `:`,
wrong number of fields from `split`, or a line number `int()` rejects). -/
def parseLine (line : String) : Option (String × String × Int) :=
  let l := line.trim
  if l.isEmpty || !(l.contains ',') || !(l.contains ':') then none
  else
    match l.splitOn "," with
    | [caller, calleePart] =>
      match calleePart.splitOn ":" with
      | [callee, linenoStr] =>
        match pyInt linenoStr with
        | some n => some (caller, callee, n)
        | none => none
      | _ => none
    | _ => none

/-- Append a value to the list stored under key `k`, creating the key at the
end if absent: the behaviour of `defaultdict(list)` under insertion order. -/
def addEntry {α : Type} (m : List (String × List α)) (k : String) (v : α) :
    List (String × List α) :=
  match m with
  | [] => [(k, [v])]
  | (k', vs) :: rest =>
    if k' = k then (k', vs ++ [v]) :: rest else (k', vs) :: addEntry rest k v

/-- Processing of one input line by `parse_call_graph_file`. -/
def parseStep (acc : CallGraph × CallSites) (l : String) : CallGraph × CallSites :=
  match parseLine l with
  | none => acc
  | some (caller, callee, lineno) =>
    (addEntry acc.1 caller callee, addEntry acc.2 caller (callee, lineno))

/-- `parse_call_graph_file`, with the file given as its list of lines. -/
def parse_call_graph_file (lines : List String) : CallGraph × CallSites :=
  lines.foldl parseStep ([], [])

/-- Every function identifier the DFS from `start` can ever touch:
`start` itself, all callers, and all recorded callees. -/
def dfsUniverse (g : CallGraph) (start : String) : List String :=
  start :: (g.map Prod.fst ++ (g.map Prod.snd).flatten)

/-- The `for callee in call_graph.get(node, [])` loop inside `dfs`:
`next` is the recursive `dfs` call on one callee, the visited set is
threaded through the iterations, and the loop stops at the first success. -/
def dfsList
    (next : List String → String → Option (Option (List String) × List String)) :
    List String → List String → Option (Option (List String) × List String)
  | visited, [] => some (none, visited)
  | visited, c :: cs =>
    match next visited c with
    | none => none
    | some (some p, v) => some (some p, v)
    | some (none, v) => dfsList next v cs

/-- The recursive `dfs(node, current_path)` of `get_call_path`.  The visited
set is threaded through; `none` signals fuel exhaustion (shown impossible
for the fuel chosen in `get_call_path`), `some (some p, v)` a found path,
`some (none, v)` an exhausted search. -/
def dfsNode (g : CallGraph) (target : String) :
    Nat → List String → List String → String →
    Option (Option (List String) × List String)
  | 0, _, _, _ => none
  | fuel + 1, visited, curPath, node =>
    if node ∈ visited then some (none, visited)
    else
      let visited' := node :: visited
      let curPath' := curPath ++ [node]
      if node = target then some (some curPath', visited')
      else dfsList (fun v c => dfsNode g target fuel v curPath' c)
        visited' (callees g node)

/-- Fuel sufficient for the DFS: one more than the number of distinct
functions it could ever visit. -/
def dfsFuel (g : CallGraph) (start : String) : Nat :=
  (dfsUniverse g start).dedup.length + 1

/-- `get_call_path(call_graph, start, target)`. -/
def get_call_path (g : CallGraph) (start target : String) : List String :=
  match dfsNode g target (dfsFuel g start) [] [] start with
  | some (some p, _) => p
  | _ => []

/-- The edge relation of the call graph: `v` is a recorded callee of `u`. -/
def callEdge (g : CallGraph) (u v : String) : Prop :=
  v ∈ callees g u

/-- `dependent_funcs.add(x)` on a set represented as a duplicate-free list. -/
def addDep (acc : List String) (x : String) : List String :=
  if x ∈ acc then acc else acc ++ [x]

/-- The inner loop of `get_preceding_dependent_funcs` over one caller's
call sites. -/
def precedingInCaller (target : String) (targetLines : List Int)
    (infos : List (String × Int)) (acc : List String) : List String :=
  infos.foldl
    (fun acc2 ci =>
      if (targetLines.any fun tl => decide (ci.2 < tl)) && (ci.1 != target)
      then addDep acc2 ci.1 else acc2)
    acc

/-- `get_preceding_dependent_funcs(call_sites, target_func)`. -/
def get_preceding_dependent_funcs (cs : CallSites) (target : String) :
    List String :=
  cs.foldl
    (fun acc p =>
      let targetLines := (p.2.filter fun ci => ci.1 == target).map Prod.snd
      if targetLines.isEmpty then acc
      else precedingInCaller target targetLines p.2 acc)
    []

/-- All functions appearing as callees anywhere in the graph. -/
def allCallees (g : CallGraph) : List String :=
  (g.map Prod.snd).flatten

/-- The `for callee in call_graph.get(func, [])` body of
`get_recursive_dependencies`: grow `(all_deps, queue)` by the unseen
callees. -/
def closureStep (dq : List String × List String) (cs : List String) :
    List String × List String :=
  cs.foldl
    (fun dq' c => if c ∈ dq'.1 then dq' else (dq'.1 ++ [c], dq'.2 ++ [c]))
    dq

/-- The `while queue` loop of `get_recursive_dependencies`; `none` signals
fuel exhaustion, shown impossible for the fuel chosen below. -/
def closureGo (g : CallGraph) : Nat → List String → List String →
    Option (List String)
  | _, deps, [] => some deps
  | 0, _, _ :: _ => none
  | fuel + 1, deps, f :: queue =>
    let dq := closureStep (deps, queue) (callees g f)
    closureGo g fuel dq.1 dq.2

/-- Fuel sufficient for the closure loop: every initial element is dequeued
once and every distinct callee of the graph is enqueued at most once. -/
def closureFuel (g : CallGraph) (initial : List String) : Nat :=
  initial.length + (allCallees g).dedup.length

/-- `get_recursive_dependencies(call_graph, initial_funcs)`. -/
def get_recursive_dependencies (g : CallGraph) (initial : List String) :
    List String :=
  (closureGo g (closureFuel g initial) initial initial).getD initial

/-- All callees appearing in the basic-block call info. -/
def bbCallees (bb : BBCalls) : List String :=
  ((bb.map Prod.snd).map List.flatten).flatten

/-- The nested `for bb in bb_calls.get(func, []): for callee in bb` body of
`expand_by_internal_calls`. -/
def expandStep (dq : List String × List String) (bbs : List (List String)) :
    List String × List String :=
  bbs.foldl (fun dqb b => closureStep dqb b) dq

/-- The `while queue` loop of `expand_by_internal_calls`. -/
def expandGo (bb : BBCalls) : Nat → List String → List String →
    Option (List String)
  | _, expanded, [] => some expanded
  | 0, _, _ :: _ => none
  | fuel + 1, expanded, f :: queue =>
    let dq := expandStep (expanded, queue) (lookupD bb f [])
    expandGo bb fuel dq.1 dq.2

/-- `expand_by_internal_calls(func_list, bb_calls)`. -/
def expand_by_internal_calls (funcList : List String) (bb : BBCalls) :
    List String :=
  (expandGo bb (funcList.length + (bbCallees bb).dedup.length)
    funcList funcList).getD funcList

/-- Set union on lists used up to membership: `acc | combined`
(Python set update, represented with insertion order). -/
def setUnion (a b : List String) : List String :=
  b.foldl addDep a

/-- The per-target body of `compute_instrumentation_set`. -/
def computeStep (g : CallGraph) (cs : CallSites) (bb : BBCalls) (e : String)
    (acc : List String) (t : String) : List String :=
  let forwardPath := get_call_path g e t
  let directDeps := get_preceding_dependent_funcs cs t
  let recursiveDeps := get_recursive_dependencies g directDeps
  let bbExpanded := expand_by_internal_calls recursiveDeps bb
  let combined := setUnion (setUnion forwardPath recursiveDeps) bbExpanded
  setUnion acc combined

/-- `compute_instrumentation_set(call_graph, call_sites, bb_calls,
entry_func, target_funcs)`. -/
def compute_instrumentation_set (g : CallGraph) (cs : CallSites)
    (bb : BBCalls) (e : String) (targets : List String) : List String :=
  targets.foldl (computeStep g cs bb e) []

/-- Reachability along call edges from a seed set: the intended meaning of
the transitive closure, and the notion of "a call path exists". -/
inductive Reach (g : CallGraph) (S : List String) : String → Prop where
  | base {x : String} : x ∈ S → Reach g S x
  | step {f c : String} : Reach g S f → c ∈ callees g f → Reach g S c

/-! ### Basic membership lemmas for the set-as-list operations -/

theorem mem_addDep {acc : List String} {x y : String} :
    y ∈ addDep acc x ↔ y ∈ acc ∨ y = x := by
  unfold addDep
  by_cases h : x ∈ acc
  · simp only [if_pos h]
    constructor
    · exact Or.inl
    · rintro (hy | rfl)
      · exact hy
      · exact h
  · simp [if_neg h]

theorem mem_setUnion {a b : List String} {x : String} :
    x ∈ setUnion a b ↔ x ∈ a ∨ x ∈ b := by
  induction b generalizing a with
  | nil => simp [setUnion]
  | cons c cs ih =>
    show x ∈ setUnion (addDep a c) cs ↔ _
    rw [ih, mem_addDep]
    simp only [List.mem_cons]
    tauto

theorem setUnion_nil (a : List String) : setUnion a [] = a := rfl

/-! ### The orchestrator `compute_instrumentation_set` -/

theorem mem_computeStep {g : CallGraph} {cs : CallSites} {bb : BBCalls}
    {e : String} {acc : List String} {t x : String} :
    x ∈ computeStep g cs bb e acc t ↔
      x ∈ acc ∨
      x ∈ setUnion
        (setUnion (get_call_path g e t)
          (get_recursive_dependencies g (get_preceding_dependent_funcs cs t)))
        (expand_by_internal_calls
          (get_recursive_dependencies g (get_preceding_dependent_funcs cs t)) bb) := by
  unfold computeStep
  exact mem_setUnion

theorem foldl_computeStep_superset {g : CallGraph} {cs : CallSites}
    {bb : BBCalls} {e : String} :
    ∀ (l : List String) (acc : List String) (x : String), x ∈ acc →
      x ∈ l.foldl (computeStep g cs bb e) acc := by
  intro l
  induction l with
  | nil => intro acc x hx; exact hx
  | cons t ts ih =>
    intro acc x hx
    exact ih _ x (mem_computeStep.mpr (Or.inl hx))

theorem mem_foldl_computeStep_of_target {g : CallGraph} {cs : CallSites}
    {bb : BBCalls} {e : String} :
    ∀ (l : List String) (acc : List String) (t x : String), t ∈ l →
      (x ∈ get_call_path g e t ∨
        x ∈ get_recursive_dependencies g (get_preceding_dependent_funcs cs t)) →
      x ∈ l.foldl (computeStep g cs bb e) acc := by
  intro l
  induction l with
  | nil => intro acc t x ht; exact absurd ht (List.not_mem_nil t)
  | cons u us ih =>
    intro acc t x ht hx
    rw [List.foldl_cons]
    rcases List.mem_cons.mp ht with rfl | ht'
    · apply foldl_computeStep_superset
      apply mem_computeStep.mpr
      refine Or.inr (mem_setUnion.mpr (Or.inl (mem_setUnion.mpr ?_)))
      exact hx
    · exact ih _ t x ht' hx

/-- C1: for every call graph, call-site map, `bb_calls` map, entry function
and target list, and every target `t` in the list, the result of
`compute_instrumentation_set` contains every function on
`get_call_path(call_graph, entry, t)` and every function in
`get_recursive_dependencies(call_graph, get_preceding_dependent_funcs(call_sites, t))`. -/
theorem claim_C1 (g : CallGraph) (cs : CallSites) (bb : BBCalls)
    (e : String) (targets : List String) (t x : String)
    (ht : t ∈ targets)
    (hx : x ∈ get_call_path g e t ∨
      x ∈ get_recursive_dependencies g (get_preceding_dependent_funcs cs t)) :
    x ∈ compute_instrumentation_set g cs bb e targets :=
  mem_foldl_computeStep_of_target targets [] t x ht hx

/-- Witness for C1: on graph `A→B→D`, with a recorded earlier call to `C`
before `D` in caller `A`, both the path node `B` and the preceding
dependency `C` land in the instrumentation set for target `D`. -/
theorem claim_C1_witness :
    ("D" ∈ (["D"] : List String) ∧
      "B" ∈ get_call_path [("A", ["B", "C"]), ("B", ["D"])] "A" "D") ∧
    "B" ∈ compute_instrumentation_set [("A", ["B", "C"]), ("B", ["D"])]
      [("A", [("C", 1), ("D", 3)])] [] "A" ["D"] :=
  ⟨⟨by decide, by decide⟩,
    claim_C1 [("A", ["B", "C"]), ("B", ["D"])] [("A", [("C", 1), ("D", 3)])]
      [] "A" ["D"] "D" "B" (by decide) (Or.inl (by decide))⟩

/-! ### Trivial-contribution facts used by C2 -/

theorem closureGo_nil_queue (g : CallGraph) (fuel : Nat) (deps : List String) :
    closureGo g fuel deps [] = some deps := by
  cases fuel <;> rfl

theorem expandGo_nil_queue (bb : BBCalls) (fuel : Nat) (expanded : List String) :
    expandGo bb fuel expanded [] = some expanded := by
  cases fuel <;> rfl

theorem grd_nil (g : CallGraph) : get_recursive_dependencies g [] = [] := by
  unfold get_recursive_dependencies
  rw [closureGo_nil_queue]
  rfl

theorem expand_nil (bb : BBCalls) : expand_by_internal_calls [] bb = [] := by
  unfold expand_by_internal_calls
  rw [expandGo_nil_queue]
  rfl

theorem computeStep_trivial {g : CallGraph} {cs : CallSites} {bb : BBCalls}
    {e : String} {t : String} (acc : List String)
    (hp : get_call_path g e t = [])
    (hd : get_preceding_dependent_funcs cs t = []) :
    computeStep g cs bb e acc t = acc := by
  simp only [computeStep, hp, hd, grd_nil, expand_nil]
  rfl

/-- C2: with empty `bb_calls`, a target `t` whose forward path from the
entry is empty and whose preceding-dependency set is empty contributes
nothing: the instrumentation set computed with `t` in the target list is
exactly the one computed without it, so the remaining targets are
processed as if `t` were absent and `t` itself is never added. -/
theorem claim_C2 (g : CallGraph) (cs : CallSites) (e : String)
    (l1 l2 : List String) (t : String)
    (hp : get_call_path g e t = [])
    (hd : get_preceding_dependent_funcs cs t = []) :
    compute_instrumentation_set g cs [] e (l1 ++ t :: l2) =
      compute_instrumentation_set g cs [] e (l1 ++ l2) := by
  unfold compute_instrumentation_set
  rw [List.foldl_append, List.foldl_append, List.foldl_cons,
    computeStep_trivial _ hp hd]

/-- Witness for C2: target `Z` is unreachable from entry `A` in the graph
`A→B` and has no recorded call sites, so the instrumentation set of
`[B, Z]` equals that of `[B]`. -/
theorem claim_C2_witness :
    (get_call_path [("A", ["B"])] "A" "Z" = [] ∧
      get_preceding_dependent_funcs [("A", [("B", 1)])] "Z" = []) ∧
    compute_instrumentation_set [("A", ["B"])] [("A", [("B", 1)])] [] "A"
        (["B"] ++ "Z" :: []) =
      compute_instrumentation_set [("A", ["B"])] [("A", [("B", 1)])] [] "A"
        (["B"] ++ []) :=
  ⟨⟨by decide, by decide⟩,
    claim_C2 [("A", ["B"])] [("A", [("B", 1)])] "A" ["B"] [] "Z"
      (by decide) (by decide)⟩

/-- C8: when start equals target, `get_call_path` returns the single-element
path `[start]`, on every call graph. -/
theorem claim_C8 (g : CallGraph) (s : String) :
    get_call_path g s s = [s] := by
  simp [get_call_path, dfsFuel, dfsNode]

/-! ### The transitive closure `get_recursive_dependencies` -/

theorem lookupD_eq_or_mem {α : Type} (m : List (String × α)) (k : String)
    (d : α) : lookupD m k d = d ∨ (k, lookupD m k d) ∈ m := by
  induction m with
  | nil => exact Or.inl rfl
  | cons p rest ih =>
    obtain ⟨k', v⟩ := p
    unfold lookupD
    by_cases h : k' = k
    · subst h
      simp
    · rw [if_neg h]
      rcases ih with h' | h'
      · exact Or.inl h'
      · exact Or.inr (List.mem_cons_of_mem _ h')

theorem mem_allCallees_of_callee {g : CallGraph} {f c : String}
    (hc : c ∈ callees g f) : c ∈ allCallees g := by
  rcases lookupD_eq_or_mem g f [] with h | h
  · rw [callees, h] at hc
    exact absurd hc (List.not_mem_nil c)
  · unfold allCallees
    rw [List.mem_flatten]
    exact ⟨callees g f, List.mem_map.mpr ⟨(f, callees g f), h, rfl⟩, hc⟩

theorem closureStep_nil (dq : List String × List String) :
    closureStep dq [] = dq := rfl

theorem closureStep_cons (dq : List String × List String) (c : String)
    (cs : List String) :
    closureStep dq (c :: cs) =
      closureStep (if c ∈ dq.1 then dq else (dq.1 ++ [c], dq.2 ++ [c])) cs :=
  rfl

theorem mem_closureStep_fst {cs : List String} :
    ∀ {dq : List String × List String} {x : String},
      x ∈ (closureStep dq cs).1 ↔ x ∈ dq.1 ∨ x ∈ cs := by
  induction cs with
  | nil => intro dq x; simp [closureStep_nil]
  | cons c cs ih =>
    intro dq x
    rw [closureStep_cons]
    by_cases h : c ∈ dq.1
    · rw [if_pos h, ih]
      simp only [List.mem_cons]
      constructor
      · rintro (hx | hx)
        · exact Or.inl hx
        · exact Or.inr (Or.inr hx)
      · rintro (hx | rfl | hx)
        · exact Or.inl hx
        · exact Or.inl h
        · exact Or.inr hx
    · rw [if_neg h, ih]
      simp only [List.mem_append, List.mem_singleton, List.mem_cons]
      tauto

theorem mem_closureStep_snd_of_mem {cs : List String} :
    ∀ {dq : List String × List String} {x : String},
      x ∈ dq.2 → x ∈ (closureStep dq cs).2 := by
  induction cs with
  | nil => intro dq x hx; exact hx
  | cons c cs ih =>
    intro dq x hx
    rw [closureStep_cons]
    by_cases h : c ∈ dq.1
    · rw [if_pos h]; exact ih hx
    · rw [if_neg h]
      exact ih (List.mem_append_left _ hx)

theorem mem_closureStep_snd_cases {cs : List String} :
    ∀ {dq : List String × List String} {x : String},
      x ∈ (closureStep dq cs).2 → x ∈ dq.2 ∨ x ∈ cs := by
  induction cs with
  | nil => intro dq x hx; exact Or.inl hx
  | cons c cs ih =>
    intro dq x hx
    rw [closureStep_cons] at hx
    by_cases h : c ∈ dq.1
    · rw [if_pos h] at hx
      rcases ih hx with h' | h'
      · exact Or.inl h'
      · exact Or.inr (List.mem_cons_of_mem _ h')
    · rw [if_neg h] at hx
      rcases ih hx with h' | h'
      · rcases List.mem_append.mp h' with h'' | h''
        · exact Or.inl h''
        · exact Or.inr (List.mem_cons.mpr (Or.inl (List.mem_singleton.mp h'')))
      · exact Or.inr (List.mem_cons_of_mem _ h')

theorem mem_closureStep_of_callee :
    ∀ (cs : List String) (dq : List String × List String) {x : String},
      x ∈ cs → x ∈ dq.1 ∨ x ∈ (closureStep dq cs).2 := by
  intro cs
  induction cs with
  | nil => intro dq x hx; exact absurd hx (List.not_mem_nil x)
  | cons c cs ih =>
    intro dq x hx
    rw [closureStep_cons]
    by_cases h : c ∈ dq.1
    · rw [if_pos h]
      rcases List.mem_cons.mp hx with rfl | hx'
      · exact Or.inl h
      · exact ih dq hx'
    · rw [if_neg h]
      rcases List.mem_cons.mp hx with rfl | hx'
      · exact Or.inr (mem_closureStep_snd_of_mem
          (List.mem_append_right _ (List.mem_singleton.mpr rfl)))
      · rcases ih (dq.1 ++ [c], dq.2 ++ [c]) hx' with h' | h'
        · rcases List.mem_append.mp h' with h'' | h''
          · exact Or.inl h''
          · exact Or.inr (mem_closureStep_snd_of_mem
              (List.mem_append_right _ h''))
        · exact Or.inr h'

theorem closureStep_measure (A : Finset String) :
    ∀ (cs : List String) (dq : List String × List String),
      (∀ c ∈ cs, c ∈ A) →
      (closureStep dq cs).2.length +
          (A \ (closureStep dq cs).1.toFinset).card ≤
        dq.2.length + (A \ dq.1.toFinset).card := by
  intro cs
  induction cs with
  | nil => intro dq _; exact le_refl _
  | cons c cs ih =>
    intro dq hA
    rw [closureStep_cons]
    by_cases h : c ∈ dq.1
    · rw [if_pos h]
      exact ih dq fun c' hc' => hA c' (List.mem_cons_of_mem _ hc')
    · rw [if_neg h]
      refine le_trans
        (ih (dq.1 ++ [c], dq.2 ++ [c])
          fun c' hc' => hA c' (List.mem_cons_of_mem _ hc')) ?_
      have hset : A \ (dq.1 ++ [c]).toFinset = (A \ dq.1.toFinset).erase c := by
        ext y
        simp only [Finset.mem_sdiff, Finset.mem_erase, List.mem_toFinset,
          List.mem_append, List.mem_singleton]
        tauto
      have hcmem : c ∈ A \ dq.1.toFinset := by
        rw [Finset.mem_sdiff, List.mem_toFinset]
        exact ⟨hA c (List.mem_cons_self c cs), h⟩
      have hpos : 0 < (A \ dq.1.toFinset).card := Finset.card_pos.mpr ⟨c, hcmem⟩
      have hcard := Finset.card_erase_of_mem hcmem
      simp only [List.length_append, List.length_singleton, hset, hcard]
      omega

theorem closureGo_isSome (g : CallGraph) :
    ∀ (fuel : Nat) (deps queue : List String),
      queue.length + ((allCallees g).toFinset \ deps.toFinset).card ≤ fuel →
      (closureGo g fuel deps queue).isSome := by
  intro fuel
  induction fuel with
  | zero =>
    intro deps queue hle
    have : queue = [] := by
      cases queue with
      | nil => rfl
      | cons a q => simp at hle
    subst this
    rw [closureGo_nil_queue]
    rfl
  | succ n ih =>
    intro deps queue hle
    cases queue with
    | nil => rw [closureGo_nil_queue]; rfl
    | cons f q =>
      show (closureGo g n (closureStep (deps, q) (callees g f)).1
        (closureStep (deps, q) (callees g f)).2).isSome
      apply ih
      have hm := closureStep_measure (allCallees g).toFinset (callees g f)
        (deps, q)
        (fun c hc => List.mem_toFinset.mpr (mem_allCallees_of_callee hc))
      dsimp only at hm
      simp only [List.length_cons] at hle
      omega

theorem closureGo_subset (g : CallGraph) :
    ∀ (fuel : Nat) (deps queue r : List String),
      closureGo g fuel deps queue = some r → deps ⊆ r := by
  intro fuel
  induction fuel with
  | zero =>
    intro deps queue r h
    cases queue with
    | nil =>
      rw [closureGo_nil_queue] at h
      injection h with h'
      subst h'
      exact fun x hx => hx
    | cons a q => exact Option.noConfusion h
  | succ n ih =>
    intro deps queue r h
    cases queue with
    | nil =>
      rw [closureGo_nil_queue] at h
      injection h with h'
      subst h'
      exact fun x hx => hx
    | cons f0 q =>
      have h' : closureGo g n (closureStep (deps, q) (callees g f0)).1
          (closureStep (deps, q) (callees g f0)).2 = some r := h
      intro x hx
      exact ih _ _ r h' (mem_closureStep_fst.mpr (Or.inl hx))

theorem closureGo_closed (g : CallGraph) :
    ∀ (fuel : Nat) (deps queue r : List String),
      closureGo g fuel deps queue = some r →
      (∀ f ∈ deps, f ∈ queue ∨ ∀ c ∈ callees g f, c ∈ deps) →
      ∀ f ∈ r, ∀ c ∈ callees g f, c ∈ r := by
  intro fuel
  induction fuel with
  | zero =>
    intro deps queue r h hinv
    cases queue with
    | nil =>
      rw [closureGo_nil_queue] at h
      injection h with h'
      subst h'
      intro f hf c hc
      rcases hinv f hf with hq | hcl
      · exact absurd hq (List.not_mem_nil f)
      · exact hcl c hc
    | cons a q => exact Option.noConfusion h
  | succ n ih =>
    intro deps queue r h hinv
    cases queue with
    | nil =>
      rw [closureGo_nil_queue] at h
      injection h with h'
      subst h'
      intro f hf c hc
      rcases hinv f hf with hq | hcl
      · exact absurd hq (List.not_mem_nil f)
      · exact hcl c hc
    | cons f0 q =>
      have h' : closureGo g n (closureStep (deps, q) (callees g f0)).1
          (closureStep (deps, q) (callees g f0)).2 = some r := h
      apply ih _ _ r h'
      have hdeps : ∀ hh ∈ deps,
          hh ∈ (closureStep (deps, q) (callees g f0)).2 ∨
          ∀ c ∈ callees g hh, c ∈ (closureStep (deps, q) (callees g f0)).1 := by
        intro hh hd
        rcases hinv hh hd with hq | hcl
        · rcases List.mem_cons.mp hq with rfl | hq'
          · exact Or.inr fun c hc' => mem_closureStep_fst.mpr (Or.inr hc')
          · exact Or.inl (mem_closureStep_snd_of_mem hq')
        · exact Or.inr fun c hc' => mem_closureStep_fst.mpr (Or.inl (hcl c hc'))
      intro hh hhmem
      rcases mem_closureStep_fst.mp hhmem with hd | hc
      · exact hdeps hh hd
      · rcases mem_closureStep_of_callee (callees g f0) (deps, q) hc with hd' | hq'
        · exact hdeps hh hd'
        · exact Or.inl hq'

theorem closureGo_reach (g : CallGraph) (S : List String) :
    ∀ (fuel : Nat) (deps queue r : List String),
      closureGo g fuel deps queue = some r →
      (∀ x ∈ deps, Reach g S x) → (∀ x ∈ queue, Reach g S x) →
      ∀ x ∈ r, Reach g S x := by
  intro fuel
  induction fuel with
  | zero =>
    intro deps queue r h hd _
    cases queue with
    | nil =>
      rw [closureGo_nil_queue] at h
      injection h with h'
      subst h'
      exact hd
    | cons a q => exact Option.noConfusion h
  | succ n ih =>
    intro deps queue r h hd hq
    cases queue with
    | nil =>
      rw [closureGo_nil_queue] at h
      injection h with h'
      subst h'
      exact hd
    | cons f0 q =>
      have h' : closureGo g n (closureStep (deps, q) (callees g f0)).1
          (closureStep (deps, q) (callees g f0)).2 = some r := h
      have hf0 : Reach g S f0 := hq f0 (List.mem_cons_self f0 q)
      apply ih _ _ r h'
      · intro x hx
        rcases mem_closureStep_fst.mp hx with hx' | hx'
        · exact hd x hx'
        · exact Reach.step hf0 hx'
      · intro x hx
        rcases mem_closureStep_snd_cases hx with hx' | hx'
        · exact hq x (List.mem_cons_of_mem _ hx')
        · exact Reach.step hf0 hx'

theorem grd_eq_some (g : CallGraph) (S : List String) :
    ∃ r, closureGo g (closureFuel g S) S S = some r ∧
      get_recursive_dependencies g S = r := by
  have hbound : S.length + ((allCallees g).toFinset \ S.toFinset).card ≤
      closureFuel g S := by
    have h1 : ((allCallees g).toFinset \ S.toFinset).card ≤
        (allCallees g).toFinset.card :=
      Finset.card_le_card (Finset.sdiff_subset)
    have h2 : (allCallees g).toFinset.card = (allCallees g).dedup.length :=
      List.card_toFinset _
    unfold closureFuel
    omega
  have h := closureGo_isSome g (closureFuel g S) S S hbound
  obtain ⟨r, hr⟩ := Option.isSome_iff_exists.mp h
  refine ⟨r, hr, ?_⟩
  rw [get_recursive_dependencies, hr]
  rfl

theorem grd_superset (g : CallGraph) (S : List String) :
    S ⊆ get_recursive_dependencies g S := by
  obtain ⟨r, hr, heq⟩ := grd_eq_some g S
  rw [heq]
  exact closureGo_subset g _ _ _ r hr

theorem grd_closed (g : CallGraph) (S : List String) :
    ∀ f ∈ get_recursive_dependencies g S,
      ∀ c ∈ callees g f, c ∈ get_recursive_dependencies g S := by
  obtain ⟨r, hr, heq⟩ := grd_eq_some g S
  rw [heq]
  exact closureGo_closed g _ _ _ r hr fun f hf => Or.inl hf

theorem grd_sound (g : CallGraph) (S : List String) :
    ∀ x ∈ get_recursive_dependencies g S, Reach g S x := by
  obtain ⟨r, hr, heq⟩ := grd_eq_some g S
  rw [heq]
  exact closureGo_reach g S _ _ _ r hr (fun x hx => Reach.base hx)
    (fun x hx => Reach.base hx)

theorem reach_mem_grd (g : CallGraph) (S : List String) :
    ∀ x, Reach g S x → x ∈ get_recursive_dependencies g S := by
  intro x hx
  induction hx with
  | base h => exact grd_superset g S h
  | step _ hc ih => exact grd_closed g S _ ih _ hc

/-- C5: `get_recursive_dependencies` always returns a superset of the seed
set that is closed under the call-graph edges: every recorded callee of a
member is a member. -/
theorem claim_C5 (g : CallGraph) (S : List String) :
    S ⊆ get_recursive_dependencies g S ∧
    ∀ f ∈ get_recursive_dependencies g S,
      ∀ c ∈ callees g f, c ∈ get_recursive_dependencies g S :=
  ⟨grd_superset g S, grd_closed g S⟩

/-- Witness for C5: on the graph `a→b`, the closure of `{a}` contains the
seed `a`, and closedness forces the callee `b` in as well. -/
theorem claim_C5_witness :
    "a" ∈ get_recursive_dependencies [("a", ["b"])] ["a"] ∧
    "b" ∈ get_recursive_dependencies [("a", ["b"])] ["a"] :=
  ⟨(claim_C5 [("a", ["b"])] ["a"]).1 (by decide),
    (claim_C5 [("a", ["b"])] ["a"]).2 "a" (by decide) "b" (by decide)⟩

/-- C10: the closure is also minimal: it contains exactly the seed set and
the functions reachable from it along call edges, nothing else. -/
theorem claim_C10 (g : CallGraph) (S : List String) (x : String) :
    x ∈ get_recursive_dependencies g S ↔ Reach g S x :=
  ⟨grd_sound g S x, reach_mem_grd g S x⟩

/-! ### Soundness of the depth-first path search -/

theorem dfsNode_zero (g : CallGraph) (target : String)
    (visited curPath : List String) (node : String) :
    dfsNode g target 0 visited curPath node = none := rfl

theorem dfsNode_succ_visited (g : CallGraph) (target : String) (n : Nat)
    {visited : List String} (curPath : List String) {node : String}
    (hv : node ∈ visited) :
    dfsNode g target (n + 1) visited curPath node = some (none, visited) := by
  simp [dfsNode, hv]

theorem dfsNode_succ_found (g : CallGraph) (target : String) (n : Nat)
    {visited : List String} (curPath : List String) {node : String}
    (hv : node ∉ visited) (ht : node = target) :
    dfsNode g target (n + 1) visited curPath node =
      some (some (curPath ++ [node]), node :: visited) := by
  subst ht
  simp [dfsNode, hv]

theorem dfsNode_succ_search (g : CallGraph) (target : String) (n : Nat)
    {visited : List String} (curPath : List String) {node : String}
    (hv : node ∉ visited) (ht : node ≠ target) :
    dfsNode g target (n + 1) visited curPath node =
      dfsList (fun v c => dfsNode g target n v (curPath ++ [node]) c)
        (node :: visited) (callees g node) := by
  simp [dfsNode, hv, ht]

theorem dfsList_sound
    (next : List String → String → Option (Option (List String) × List String))
    (P : String → List String → List String → Prop)
    (hnext : ∀ v c p v', next v c = some (some p, v') → P c p v') :
    ∀ (cs visited p v : List String),
      dfsList next visited cs = some (some p, v) → ∃ c ∈ cs, P c p v := by
  intro cs
  induction cs with
  | nil =>
    intro visited p v h
    simp [dfsList] at h
  | cons c cs ih =>
    intro visited p v h
    rw [dfsList] at h
    cases hnc : next visited c with
    | none => rw [hnc] at h; exact Option.noConfusion h
    | some x =>
      obtain ⟨o, v'⟩ := x
      cases o with
      | none =>
        rw [hnc] at h
        obtain ⟨c', hc', hP⟩ := ih v' p v h
        exact ⟨c', List.mem_cons_of_mem _ hc', hP⟩
      | some p' =>
        rw [hnc] at h
        injection h with h'
        injection h' with h1 h2
        injection h1 with h1
        subst h1
        subst h2
        exact ⟨c, List.mem_cons_self c cs, hnext _ _ _ _ hnc⟩

theorem dfsNode_sound (g : CallGraph) (target : String) :
    ∀ (fuel : Nat) (visited curPath : List String) (node : String)
      (p v : List String),
      dfsNode g target fuel visited curPath node = some (some p, v) →
      ∃ q, p = curPath ++ q ∧ q.head? = some node ∧
        List.Chain' (callEdge g) q ∧ q.getLast? = some target := by
  intro fuel
  induction fuel with
  | zero =>
    intro visited curPath node p v h
    exact Option.noConfusion h
  | succ n ih =>
    intro visited curPath node p v h
    by_cases hv : node ∈ visited
    · rw [dfsNode_succ_visited g target n curPath hv] at h
      simp at h
    · by_cases ht : node = target
      · rw [dfsNode_succ_found g target n curPath hv ht] at h
        injection h with h'
        injection h' with h1 h2
        injection h1 with h1
        subst h1
        refine ⟨[node], rfl, rfl, List.chain'_singleton node, ?_⟩
        rw [ht]
        rfl
      · rw [dfsNode_succ_search g target n curPath hv ht] at h
        obtain ⟨c, hc, q', hq'eq, hq'head, hq'chain, hq'last⟩ :=
          dfsList_sound _
            (fun c p _ => ∃ q', p = (curPath ++ [node]) ++ q' ∧
              q'.head? = some c ∧ List.Chain' (callEdge g) q' ∧
              q'.getLast? = some target)
            (fun v0 c p0 v0' hh => ih v0 (curPath ++ [node]) c p0 v0' hh)
            (callees g node) (node :: visited) p v h
        cases q' with
        | nil => exact Option.noConfusion hq'head
        | cons b bs =>
          injection hq'head with hb
          subst hb
          refine ⟨node :: b :: bs, ?_, rfl, ?_, ?_⟩
          · rw [hq'eq, List.append_assoc]
            rfl
          · rw [List.chain'_cons]
            exact ⟨hc, hq'chain⟩
          · rw [List.getLast?_cons_cons]
            exact hq'last

theorem get_call_path_cases (g : CallGraph) (s t : String) :
    get_call_path g s t = [] ∨
      ∃ v, dfsNode g t (dfsFuel g s) [] [] s =
        some (some (get_call_path g s t), v) := by
  unfold get_call_path
  cases hd : dfsNode g t (dfsFuel g s) [] [] s with
  | none => exact Or.inl rfl
  | some x =>
    obtain ⟨o, v⟩ := x
    cases o with
    | none => exact Or.inl rfl
    | some p => exact Or.inr ⟨v, rfl⟩

/-- C3: whenever `get_call_path` returns a non-empty sequence, its first
element is the start, its last element is the target, and every
consecutive pair follows a recorded call edge of the graph. -/
theorem claim_C3 (g : CallGraph) (e t : String)
    (h : get_call_path g e t ≠ []) :
    (get_call_path g e t).head? = some e ∧
    (get_call_path g e t).getLast? = some t ∧
    List.Chain' (callEdge g) (get_call_path g e t) := by
  rcases get_call_path_cases g e t with hnil | ⟨v, hd⟩
  · exact absurd hnil h
  · obtain ⟨q, hpq, hhead, hchain, hlast⟩ :=
      dfsNode_sound g t (dfsFuel g e) [] [] e _ v hd
    rw [List.nil_append] at hpq
    rw [hpq]
    exact ⟨hhead, hlast, hchain⟩

/-- Witness for C3: on the graph `a→b`, the found path `[a, b]` starts at
the entry, ends at the target and follows call edges. -/
theorem claim_C3_witness :
    get_call_path [("a", ["b"])] "a" "b" ≠ [] ∧
    ((get_call_path [("a", ["b"])] "a" "b").head? = some "a" ∧
      (get_call_path [("a", ["b"])] "a" "b").getLast? = some "b" ∧
      List.Chain' (callEdge [("a", ["b"])])
        (get_call_path [("a", ["b"])] "a" "b")) :=
  ⟨by decide, claim_C3 [("a", ["b"])] "a" "b" (by decide)⟩

/-! ### Unreachable targets (C7) -/

theorem chain_all_reach (g : CallGraph) (S : List String) :
    ∀ (q : List String) (h0 : String), List.Chain' (callEdge g) q →
      q.head? = some h0 → Reach g S h0 → ∀ x ∈ q, Reach g S x := by
  intro q
  induction q with
  | nil => intro h0 _ _ _ x hx; exact absurd hx (List.not_mem_nil x)
  | cons a l ih =>
    intro h0 hchain hhead hreach x hx
    injection hhead with ha
    subst ha
    rcases List.mem_cons.mp hx with rfl | hx'
    · exact hreach
    · cases l with
      | nil => exact absurd hx' (List.not_mem_nil x)
      | cons b bs =>
        rw [List.chain'_cons] at hchain
        exact ih b hchain.2 rfl (Reach.step hreach hchain.1) x hx'

/-- Counterexample to C7 as stated: in the empty call graph the start
function `a` has no recorded outgoing edges (it is absent from the graph),
yet `get_call_path` on `start = target = a` returns `[a]`, not the empty
sequence. -/
theorem claim_C7_counterexample :
    callees ([] : CallGraph) "a" = [] ∧
    get_call_path ([] : CallGraph) "a" "a" = ["a"] :=
  ⟨rfl, by decide⟩

/-- C7 (amended): if the target is not reachable from the start along call
edges — with every function counting as reachable from itself, so the case
`start = target` is excluded — then `get_call_path` returns the empty
sequence.  (The code never fails on such inputs: `get_call_path` is total.)
For a start absent from the graph this covers every target except the start
itself, for which `get_call_path g s s = [s]` even though `s` has no
recorded edges. -/
theorem claim_C7 (g : CallGraph) (s t : String)
    (h : ¬ Reach g [s] t) : get_call_path g s t = [] := by
  by_contra hne
  apply h
  rcases get_call_path_cases g s t with hnil | ⟨v, hd⟩
  · exact absurd hnil hne
  · obtain ⟨q, hpq, hhead, hchain, hlast⟩ :=
      dfsNode_sound g t (dfsFuel g s) [] [] s _ v hd
    have hmem : t ∈ q := by
      obtain ⟨hne', heq⟩ := List.mem_getLast?_eq_getLast
        (show t ∈ q.getLast? from hlast)
      rw [heq]
      exact List.getLast_mem hne'
    exact chain_all_reach g [s] q s hchain hhead
      (Reach.base (List.mem_singleton.mpr rfl)) t hmem

/-- Witness for the amended C7: in the empty call graph, `b` is not
reachable from `a`, and the computed path is empty. -/
theorem claim_C7_witness :
    (¬ Reach ([] : CallGraph) ["a"] "b") ∧
    get_call_path ([] : CallGraph) "a" "b" = [] := by
  have hnr : ¬ Reach ([] : CallGraph) ["a"] "b" := by
    intro h
    cases h with
    | base hb => simp at hb
    | step hf hc => exact absurd hc (List.not_mem_nil _)
  exact ⟨hnr, claim_C7 ([] : CallGraph) "a" "b" hnr⟩

/-! ### Termination: the chosen fuel never runs out (C6) -/

theorem dfsList_drain (U : Finset String) (n : Nat)
    (next : List String → String → Option (Option (List String) × List String))
    (hnext : ∀ v c, c ∈ U → (∀ x ∈ v, x ∈ U) →
      (U \ v.toFinset).card + 1 ≤ n →
      ∃ o v', next v c = some (o, v') ∧ (∀ x ∈ v, x ∈ v') ∧
        (∀ x ∈ v', x ∈ U)) :
    ∀ (cs visited : List String), (∀ c ∈ cs, c ∈ U) →
      (∀ x ∈ visited, x ∈ U) → (U \ visited.toFinset).card + 1 ≤ n →
      ∃ o v', dfsList next visited cs = some (o, v') ∧
        (∀ x ∈ visited, x ∈ v') ∧ (∀ x ∈ v', x ∈ U) := by
  intro cs
  induction cs with
  | nil =>
    intro visited _ hvU _
    exact ⟨none, visited, rfl, fun x hx => hx, hvU⟩
  | cons c cs ih =>
    intro visited hcs hvU hcard
    obtain ⟨o, v', hnc, hsub, hvU'⟩ :=
      hnext visited c (hcs c (List.mem_cons_self c cs)) hvU hcard
    have hcard' : (U \ v'.toFinset).card + 1 ≤ n := by
      have hmono : U \ v'.toFinset ⊆ U \ visited.toFinset := by
        apply Finset.sdiff_subset_sdiff (le_refl U)
        intro x hx
        exact List.mem_toFinset.mpr (hsub x (List.mem_toFinset.mp hx))
      have := Finset.card_le_card hmono
      omega
    cases o with
    | some p =>
      refine ⟨some p, v', ?_, hsub, hvU'⟩
      rw [dfsList, hnc]
    | none =>
      obtain ⟨o', v'', heq, hsub', hvU''⟩ := ih v'
        (fun c' hc' => hcs c' (List.mem_cons_of_mem _ hc')) hvU' hcard'
      refine ⟨o', v'', ?_, fun x hx => hsub' x (hsub x hx), hvU''⟩
      rw [dfsList, hnc]
      exact heq

theorem dfsNode_drain (g : CallGraph) (target : String) (U : Finset String)
    (hU : ∀ f c, c ∈ callees g f → c ∈ U) :
    ∀ (fuel : Nat) (visited curPath : List String) (node : String),
      node ∈ U → (∀ x ∈ visited, x ∈ U) →
      (U \ visited.toFinset).card + 1 ≤ fuel →
      ∃ o v, dfsNode g target fuel visited curPath node = some (o, v) ∧
        (∀ x ∈ visited, x ∈ v) ∧ (∀ x ∈ v, x ∈ U) := by
  intro fuel
  induction fuel with
  | zero =>
    intro visited curPath node _ _ hcard
    omega
  | succ n ih =>
    intro visited curPath node hnU hvU hcard
    by_cases hv : node ∈ visited
    · exact ⟨none, visited, dfsNode_succ_visited g target n curPath hv,
        fun x hx => hx, hvU⟩
    · have hvU' : ∀ x ∈ node :: visited, x ∈ U := by
        intro x hx
        rcases List.mem_cons.mp hx with rfl | hx'
        · exact hnU
        · exact hvU x hx'
      have hcard' : (U \ (node :: visited).toFinset).card + 1 ≤ n := by
        have hset : U \ (node :: visited).toFinset =
            (U \ visited.toFinset).erase node := by
          ext y
          simp only [Finset.mem_sdiff, Finset.mem_erase, List.mem_toFinset,
            List.mem_cons]
          tauto
        have hmem : node ∈ U \ visited.toFinset := by
          rw [Finset.mem_sdiff, List.mem_toFinset]
          exact ⟨hnU, hv⟩
        have hpos : 0 < (U \ visited.toFinset).card :=
          Finset.card_pos.mpr ⟨node, hmem⟩
        have herase := Finset.card_erase_of_mem hmem
        rw [hset, herase]
        omega
      by_cases ht : node = target
      · exact ⟨some (curPath ++ [node]), node :: visited,
          dfsNode_succ_found g target n curPath hv ht, fun x hx =>
            List.mem_cons_of_mem _ hx, hvU'⟩
      · obtain ⟨o, v, heq, hsub, hvU''⟩ := dfsList_drain U n
          (fun v c => dfsNode g target n v (curPath ++ [node]) c)
          (fun v0 c hc hv0 hcard0 => ih v0 (curPath ++ [node]) c hc hv0 hcard0)
          (callees g node) (node :: visited)
          (fun c hc => hU node c hc) hvU' hcard'
        refine ⟨o, v, ?_, fun x hx => hsub x (List.mem_cons_of_mem _ hx),
          hvU''⟩
        rw [dfsNode_succ_search g target n curPath hv ht]
        exact heq

/-- C6: both traversals terminate within their fuel on every finite call
graph, cyclic graphs and self-loops included: the depth-first search of
`get_call_path` (which visits each function at most once, so `dfsFuel`
node entries suffice) and the breadth-first closure of
`get_recursive_dependencies` (which enqueues each function at most once,
so `closureFuel` dequeues suffice) never exhaust their fuel. -/
theorem claim_C6 (g : CallGraph) (start target : String) (S : List String) :
    (dfsNode g target (dfsFuel g start) [] [] start).isSome ∧
    (closureGo g (closureFuel g S) S S).isSome := by
  constructor
  · have hU : ∀ f c, c ∈ callees g f → c ∈ (dfsUniverse g start).toFinset := by
      intro f c hc
      rw [List.mem_toFinset]
      unfold dfsUniverse
      exact List.mem_cons_of_mem _
        (List.mem_append_right _ (mem_allCallees_of_callee hc))
    have hstart : start ∈ (dfsUniverse g start).toFinset := by
      rw [List.mem_toFinset]
      exact List.mem_cons_self _ _
    have hcard : ((dfsUniverse g start).toFinset \
        ([] : List String).toFinset).card + 1 ≤ dfsFuel g start := by
      have h2 : (dfsUniverse g start).toFinset.card =
          (dfsUniverse g start).dedup.length := List.card_toFinset _
      have h3 : (dfsUniverse g start).toFinset \
          ([] : List String).toFinset = (dfsUniverse g start).toFinset := by
        simp
      rw [h3, h2]
      unfold dfsFuel
      omega
    obtain ⟨o, v, heq, _, _⟩ := dfsNode_drain g target
      (dfsUniverse g start).toFinset hU (dfsFuel g start) [] [] start
      hstart (fun x hx => absurd hx (List.not_mem_nil x)) hcard
    rw [heq]
    rfl
  · apply closureGo_isSome
    have h1 : ((allCallees g).toFinset \ S.toFinset).card ≤
        (allCallees g).toFinset.card :=
      Finset.card_le_card (Finset.sdiff_subset)
    have h2 : (allCallees g).toFinset.card = (allCallees g).dedup.length :=
      List.card_toFinset _
    unfold closureFuel
    omega

/-! ### Characterisation of `get_preceding_dependent_funcs` (C4) -/

theorem precedingInCaller_cons (target : String) (tls : List Int)
    (ci : String × Int) (infos : List (String × Int)) (acc : List String) :
    precedingInCaller target tls (ci :: infos) acc =
      precedingInCaller target tls infos
        (if (tls.any fun tl => decide (ci.2 < tl)) && (ci.1 != target)
          then addDep acc ci.1 else acc) := rfl

theorem preceding_cond_iff {tls : List Int} {l : Int} {c target : String} :
    ((tls.any fun tl => decide (l < tl)) && (c != target)) = true ↔
      (∃ tl ∈ tls, l < tl) ∧ c ≠ target := by
  simp [List.any_eq_true]

theorem mem_precedingInCaller (target : String) (tls : List Int) :
    ∀ (infos : List (String × Int)) (acc : List String) (x : String),
      x ∈ precedingInCaller target tls infos acc ↔
        x ∈ acc ∨ ∃ l : Int, (x, l) ∈ infos ∧ x ≠ target ∧
          ∃ tl ∈ tls, l < tl := by
  intro infos
  induction infos with
  | nil =>
    intro acc x
    simp [precedingInCaller]
  | cons ci infos ih =>
    intro acc x
    rw [precedingInCaller_cons]
    by_cases hc :
        ((tls.any fun tl => decide (ci.2 < tl)) && (ci.1 != target)) = true
    · rw [if_pos hc, ih, mem_addDep]
      obtain ⟨hlt, hne⟩ := preceding_cond_iff.mp hc
      constructor
      · rintro ((hx | rfl) | ⟨l, hl, hxt, htl⟩)
        · exact Or.inl hx
        · exact Or.inr ⟨ci.2, List.mem_cons_self ci infos, hne, hlt⟩
        · exact Or.inr ⟨l, List.mem_cons_of_mem _ hl, hxt, htl⟩
      · rintro (hx | ⟨l, hl, hxt, htl⟩)
        · exact Or.inl (Or.inl hx)
        · rcases List.mem_cons.mp hl with heq | hl'
          · have : x = ci.1 := congrArg Prod.fst heq
            exact Or.inl (Or.inr this)
          · exact Or.inr ⟨l, hl', hxt, htl⟩
    · rw [if_neg hc, ih]
      constructor
      · rintro (hx | ⟨l, hl, hxt, htl⟩)
        · exact Or.inl hx
        · exact Or.inr ⟨l, List.mem_cons_of_mem _ hl, hxt, htl⟩
      · rintro (hx | ⟨l, hl, hxt, htl⟩)
        · exact Or.inl hx
        · rcases List.mem_cons.mp hl with heq | hl'
          · exfalso
            apply hc
            apply preceding_cond_iff.mpr
            have hx1 : x = ci.1 := congrArg Prod.fst heq
            have hl2 : l = ci.2 := congrArg Prod.snd heq
            subst hx1
            rw [hl2] at htl
            exact ⟨htl, hxt⟩
          · exact Or.inr ⟨l, hl', hxt, htl⟩

theorem mem_targetLines {infos : List (String × Int)} {target : String}
    {tl : Int} :
    tl ∈ (infos.filter fun ci => ci.1 == target).map Prod.snd ↔
      (target, tl) ∈ infos := by
  simp only [List.mem_map, List.mem_filter, beq_iff_eq]
  constructor
  · rintro ⟨⟨a, b⟩, ⟨hm, ha⟩, hb⟩
    simp only at ha hb
    subst ha
    subst hb
    exact hm
  · intro hm
    exact ⟨(target, tl), ⟨hm, rfl⟩, rfl⟩

theorem mem_gpdf_aux (target : String) :
    ∀ (cs : CallSites) (acc : List String) (x : String),
      x ∈ cs.foldl
        (fun acc p =>
          let targetLines := (p.2.filter fun ci => ci.1 == target).map Prod.snd
          if targetLines.isEmpty then acc
          else precedingInCaller target targetLines p.2 acc)
        acc ↔
      x ∈ acc ∨ ∃ p ∈ cs, ∃ l : Int, (x, l) ∈ p.2 ∧ x ≠ target ∧
        ∃ tl : Int, (target, tl) ∈ p.2 ∧ l < tl := by
  intro cs
  induction cs with
  | nil =>
    intro acc x
    simp
  | cons p ps ih =>
    intro acc x
    rw [List.foldl_cons]
    dsimp only
    by_cases hemp :
        ((p.2.filter fun ci => ci.1 == target).map Prod.snd).isEmpty = true
    · rw [if_pos hemp, ih]
      have hnot : ∀ tl : Int, (target, tl) ∉ p.2 := by
        intro tl htl
        have : tl ∈ (p.2.filter fun ci => ci.1 == target).map Prod.snd :=
          mem_targetLines.mpr htl
        rw [List.isEmpty_iff] at hemp
        rw [hemp] at this
        exact List.not_mem_nil tl this
      constructor
      · rintro (hx | ⟨p', hp', hrest⟩)
        · exact Or.inl hx
        · exact Or.inr ⟨p', List.mem_cons_of_mem _ hp', hrest⟩
      · rintro (hx | ⟨p', hp', l, hl, hxt, tl, htl, hlt⟩)
        · exact Or.inl hx
        · rcases List.mem_cons.mp hp' with rfl | hp''
          · exact absurd htl (hnot tl)
          · exact Or.inr ⟨p', hp'', l, hl, hxt, tl, htl, hlt⟩
    · rw [if_neg hemp, ih, mem_precedingInCaller]
      constructor
      · rintro ((hx | ⟨l, hl, hxt, tl, htls, hlt⟩) | ⟨p', hp', hrest⟩)
        · exact Or.inl hx
        · exact Or.inr ⟨p, List.mem_cons_self p ps, l, hl, hxt, tl,
            mem_targetLines.mp htls, hlt⟩
        · exact Or.inr ⟨p', List.mem_cons_of_mem _ hp', hrest⟩
      · rintro (hx | ⟨p', hp', l, hl, hxt, tl, htl, hlt⟩)
        · exact Or.inl (Or.inl hx)
        · rcases List.mem_cons.mp hp' with rfl | hp''
          · exact Or.inl (Or.inr ⟨l, hl, hxt, tl, mem_targetLines.mpr htl,
              hlt⟩)
          · exact Or.inr ⟨p', hp'', l, hl, hxt, tl, htl, hlt⟩

/-- C4: `get_preceding_dependent_funcs` contains exactly the functions `x`
for which some caller records a call site `(x, l)` with `x` different from
the target and `l` strictly below some line at which the same caller calls
the target; in particular the target itself is never in the result. -/
theorem claim_C4 (cs : CallSites) (t x : String) :
    (x ∈ get_preceding_dependent_funcs cs t ↔
      ∃ p ∈ cs, ∃ l : Int, (x, l) ∈ p.2 ∧ x ≠ t ∧
        ∃ tl : Int, (t, tl) ∈ p.2 ∧ l < tl) ∧
    t ∉ get_preceding_dependent_funcs cs t := by
  constructor
  · exact (mem_gpdf_aux t cs [] x).trans (by simp)
  · intro ht
    rcases (mem_gpdf_aux t cs [] t).mp ht with h | ⟨p, _, l, _, hne, _⟩
    · exact absurd h (List.not_mem_nil t)
    · exact hne rfl

/-! ### Tolerant parsing of `call_graph.txt` (C9) -/

theorem parse_skips_malformed_aux :
    ∀ (lines : List String) (acc : CallGraph × CallSites),
      lines.foldl parseStep acc =
        (lines.filter fun l => (parseLine l).isSome).foldl parseStep acc := by
  intro lines
  induction lines with
  | nil => intro acc; rfl
  | cons l ls ih =>
    intro acc
    rw [List.foldl_cons]
    cases hp : parseLine l with
    | none =>
      have hstep : parseStep acc l = acc := by
        rw [parseStep, hp]
      have hfilt : (l :: ls).filter (fun l => (parseLine l).isSome) =
          ls.filter fun l => (parseLine l).isSome := by
        simp [List.filter_cons, hp]
      rw [hstep, hfilt]
      exact ih acc
    | some v =>
      have hfilt : (l :: ls).filter (fun l => (parseLine l).isSome) =
          l :: ls.filter fun l => (parseLine l).isSome := by
        simp [List.filter_cons, hp]
      rw [hfilt, List.foldl_cons]
      exact ih (parseStep acc l)

/-- C9: `parse_call_graph_file` skips every malformed line (one on which
`parseLine` fails: missing `,` or `:` separators, wrong field count, or an
unparsable line number) and never aborts: the call graph and call-site map
it builds are exactly those built from the well-formed lines alone, in file
order, so a malformed line never affects the valid lines around it. -/
theorem claim_C9 (lines : List String) :
    parse_call_graph_file lines =
      parse_call_graph_file (lines.filter fun l => (parseLine l).isSome) :=
  parse_skips_malformed_aux lines ([], [])
